import Mathlib

/-!
Verification development for the NLP_Toolkit repository.

The repository provides text-processing batch operations (Tokenizer
batch encode/decode, bag-of-words counting, embedding generation)
parallelized over a hand-written `ThreadPool`.  This file gives a
shallow embedding of the relevant C++ functions:

* `splitTokens` (Toolkit.cpp) — the chunk partitioner,
* `Toolkit::getBagOfWords` (Toolkit.cpp) — parallel counting,
* `Toolkit::getEmbeddings` (Toolkit.cpp) — key-generation merge,
* `Tokenizer::encode/decode/batchEncode/batchDecode` (Tokenizer.cpp),
* the `ThreadPool` (ThreadPool.h / ThreadPool.cpp) as a labelled
  transition system over an explicit pool state.

Per-chunk computations in the C++ code write to private result slots
(distinct vector entries / distinct futures) and are merged only after
the pool has drained, in a fixed order, so their aggregated results are
modelled by pure functions; the scheduling nondeterminism of the pool
itself is modelled by the `Step` relation.
-/

namespace NLPToolkit

/-- Thread-count normalization appearing verbatim in every batch
operation of Toolkit.cpp and Tokenizer.cpp:
`if (numThreads <= 0 || numThreads > (int)maxThreads) numThreads = maxThreads;`
where `maxThreads` is `std::thread::hardware_concurrency()`. -/
def resolveThreads (numThreads : Int) (maxThreads : Nat) : Nat :=
  if numThreads ≤ 0 ∨ (maxThreads : Int) < numThreads then maxThreads
  else numThreads.toNat

theorem resolveThreads_pos (numThreads : Int) (maxThreads : Nat)
    (h : 1 ≤ maxThreads) : 1 ≤ resolveThreads numThreads maxThreads := by
  unfold resolveThreads
  split
  · exact h
  · next hn => omega

/-- Loop body of `splitTokens` (Toolkit.cpp, lines 103-125).  The C++
loop runs `i` from the current index up to `numParts - 1`, keeping a
running offset `start` and slicing `[start, end)` out of `tokens` where
`end = start + blockSize + (i < remainder ? 1 : 0)`.  The first
argument counts the remaining iterations. -/
def splitChunksAux (tokens : List String) (blockSize remainder : Nat) :
    Nat → Nat → Nat → List (List String)
  | 0, _, _ => []
  | parts + 1, i, start =>
    let e := start + blockSize + (if i < remainder then 1 else 0)
    ((tokens.drop start).take (e - start)) ::
      splitChunksAux tokens blockSize remainder parts (i + 1) e

/-- `splitTokens` (Toolkit.cpp): divides `tokens` into `numParts`
contiguous chunks with `blockSize = tokens.size() / numParts` and
`remainder = tokens.size() % numParts`; the first `remainder` chunks
receive one extra element. -/
def splitTokens (tokens : List String) (numParts : Nat) : List (List String) :=
  splitChunksAux tokens (tokens.length / numParts) (tokens.length % numParts)
    numParts 0 0

/-- Total number of elements the chunks starting at loop index `i` are
assigned by `splitChunksAux` over `parts` iterations. -/
def chunkCap (blockSize remainder : Nat) : Nat → Nat → Nat
  | 0, _ => 0
  | parts + 1, i =>
    (blockSize + if i < remainder then 1 else 0) + chunkCap blockSize remainder parts (i + 1)

theorem splitChunksAux_flatten (tokens : List String) (blockSize remainder : Nat) :
    ∀ (parts i start : Nat),
      (splitChunksAux tokens blockSize remainder parts i start).flatten
        = (tokens.drop start).take (chunkCap blockSize remainder parts i) := by
  intro parts
  induction parts with
  | zero => intro i start; simp [splitChunksAux, chunkCap]
  | succ p ih =>
    intro i start
    have hsub : start + blockSize + (if i < remainder then 1 else 0) - start
        = blockSize + (if i < remainder then 1 else 0) := by omega
    have h1 : splitChunksAux tokens blockSize remainder (p + 1) i start
        = ((tokens.drop start).take (blockSize + (if i < remainder then 1 else 0))) ::
          splitChunksAux tokens blockSize remainder p (i + 1)
            (start + blockSize + (if i < remainder then 1 else 0)) := by
      show ((tokens.drop start).take
            ((start + blockSize + (if i < remainder then 1 else 0)) - start)) ::
          splitChunksAux tokens blockSize remainder p (i + 1)
            (start + blockSize + (if i < remainder then 1 else 0)) = _
      rw [hsub]
    rw [h1, List.flatten_cons, ih]
    have h2 : tokens.drop (start + blockSize + (if i < remainder then 1 else 0))
        = (tokens.drop start).drop (blockSize + (if i < remainder then 1 else 0)) := by
      rw [List.drop_drop]
      congr 1
      omega
    rw [h2, ← List.take_add]
    rfl

theorem chunkCap_eq (blockSize remainder : Nat) :
    ∀ (parts i : Nat), chunkCap blockSize remainder parts i
      = parts * blockSize + (min (i + parts) remainder - min i remainder) := by
  intro parts
  induction parts with
  | zero => intro i; simp [chunkCap]
  | succ p ih =>
    intro i
    have h := ih (i + 1)
    have hm : (p + 1) * blockSize = p * blockSize + blockSize := Nat.succ_mul p blockSize
    simp only [chunkCap, h]
    rcases Nat.lt_or_ge i remainder with hc | hc
    · simp only [if_pos hc]
      omega
    · simp only [if_neg (Nat.not_lt.mpr hc)]
      omega

theorem splitChunksAux_length (tokens : List String) (blockSize remainder : Nat) :
    ∀ (parts i start : Nat),
      (splitChunksAux tokens blockSize remainder parts i start).length = parts := by
  intro parts
  induction parts with
  | zero => intro i start; simp [splitChunksAux]
  | succ p ih => intro i start; simp [splitChunksAux, ih]

theorem splitTokens_flatten (tokens : List String) (numParts : Nat)
    (h : 1 ≤ numParts) : (splitTokens tokens numParts).flatten = tokens := by
  unfold splitTokens
  rw [splitChunksAux_flatten, chunkCap_eq, List.drop_zero]
  have hmod : tokens.length % numParts < numParts := Nat.mod_lt _ h
  have hdm : numParts * (tokens.length / numParts) + tokens.length % numParts
      = tokens.length := Nat.div_add_mod _ _
  have h2 : numParts * (tokens.length / numParts) +
      (min (0 + numParts) (tokens.length % numParts) -
        min 0 (tokens.length % numParts)) = tokens.length := by
    omega
  rw [h2, List.take_length]

theorem splitChunksAux_map_length (tokens : List String) (blockSize remainder : Nat) :
    ∀ (parts i start : Nat),
      start + chunkCap blockSize remainder parts i ≤ tokens.length →
      (splitChunksAux tokens blockSize remainder parts i start).map List.length
        = (List.range parts).map
            (fun j => blockSize + if i + j < remainder then 1 else 0) := by
  intro parts
  induction parts with
  | zero => intro i start _; simp [splitChunksAux]
  | succ p ih =>
    intro i start h
    have hcap : chunkCap blockSize remainder (p + 1) i
        = (blockSize + (if i < remainder then 1 else 0)) +
          chunkCap blockSize remainder p (i + 1) := rfl
    have hsub : start + blockSize + (if i < remainder then 1 else 0) - start
        = blockSize + (if i < remainder then 1 else 0) := by omega
    have h1 : splitChunksAux tokens blockSize remainder (p + 1) i start
        = ((tokens.drop start).take (blockSize + (if i < remainder then 1 else 0))) ::
          splitChunksAux tokens blockSize remainder p (i + 1)
            (start + blockSize + (if i < remainder then 1 else 0)) := by
      show ((tokens.drop start).take
            ((start + blockSize + (if i < remainder then 1 else 0)) - start)) ::
          splitChunksAux tokens blockSize remainder p (i + 1)
            (start + blockSize + (if i < remainder then 1 else 0)) = _
      rw [hsub]
    have hlen : ((tokens.drop start).take
        (blockSize + (if i < remainder then 1 else 0))).length
        = blockSize + (if i < remainder then 1 else 0) := by
      rw [List.length_take, List.length_drop]
      omega
    have htail := ih (i + 1)
      (start + blockSize + (if i < remainder then 1 else 0)) (by omega)
    rw [h1, List.map_cons, hlen, htail, List.range_succ_eq_map, List.map_cons,
      List.map_map]
    congr 1
    apply List.map_congr_left
    intro a _
    have he : i + 1 + a = i + (a + 1) := by omega
    simp only [Function.comp_apply, Nat.succ_eq_add_one, he]

/-- C3 — counterexample.  The claim says the partitioner clamps the
effective chunk count into `[1, max(1, N)]` and that `N = 0` yields
zero chunks.  `splitTokens` does neither: it always produces exactly
`numParts` chunks, so `N = 0` with 2 requested parts yields two empty
chunks, and `N = 1` with 2 requested parts yields 2 chunks (more than
`max(1, N) = 1`). -/
theorem splitTokens_no_clamp_cex :
    splitTokens ([] : List String) 2 = [[], []] ∧
      (splitTokens ["a"] 2).length = 2 := by
  constructor <;> rfl

/-- C3 (amended): for every token list and every requested chunk count
`C ≥ 1`, the chunks returned by `splitTokens` cover the input exactly
once, with no gaps or overlaps, in increasing index order (their
ordered concatenation is the input), and exactly `C` chunks are
produced (no clamping to the item count: when `C > N` the trailing
chunks are empty, and `N = 0` yields `C` empty chunks). -/
theorem splitTokens_coverage (tokens : List String) (numParts : Nat)
    (h : 1 ≤ numParts) :
    (splitTokens tokens numParts).flatten = tokens ∧
      (splitTokens tokens numParts).length = numParts := by
  refine ⟨splitTokens_flatten tokens numParts h, ?_⟩
  unfold splitTokens
  exact splitChunksAux_length tokens _ _ numParts 0 0

theorem splitTokens_coverage_witness :
    1 ≤ 2 ∧ ((splitTokens ["a", "b", "c"] 2).flatten = ["a", "b", "c"] ∧
      (splitTokens ["a", "b", "c"] 2).length = 2) :=
  ⟨by decide, splitTokens_coverage ["a", "b", "c"] 2 (by decide)⟩

/-- C4: for every item count `N` and chunk count `C ≥ 1`, `splitTokens`
gives each of the first `N % C` chunks exactly `N / C + 1` items and
every later chunk exactly `N / C` items (so chunk sizes differ by at
most 1); in particular partitioning 11 items into 4 chunks yields
chunk sizes `[3, 3, 3, 2]`. -/
theorem splitTokens_remainder_sizes (tokens : List String) (numParts : Nat)
    (h : 1 ≤ numParts) :
    (splitTokens tokens numParts).map List.length
      = (List.range numParts).map
          (fun j => tokens.length / numParts +
            if j < tokens.length % numParts then 1 else 0) ∧
      (splitTokens (List.replicate 11 "x") 4).map List.length = [3, 3, 3, 2] := by
  constructor
  · have hmod : tokens.length % numParts < numParts := Nat.mod_lt _ h
    have hdm : numParts * (tokens.length / numParts) + tokens.length % numParts
        = tokens.length := Nat.div_add_mod _ _
    have hcap := chunkCap_eq (tokens.length / numParts)
      (tokens.length % numParts) numParts 0
    have hle : 0 + chunkCap (tokens.length / numParts)
        (tokens.length % numParts) numParts 0 ≤ tokens.length := by
      omega
    unfold splitTokens
    rw [splitChunksAux_map_length tokens _ _ numParts 0 0 hle]
    congr 1
    funext j
    simp
  · rfl

theorem splitTokens_remainder_sizes_witness :
    1 ≤ 4 ∧ (splitTokens (List.replicate 11 "x") 4).map List.length
      = [3, 3, 3, 2] :=
  ⟨by decide, (splitTokens_remainder_sizes (List.replicate 11 "x") 4 (by decide)).2⟩

theorem count_flatten_eq_sum (tok : String) :
    ∀ (chunks : List (List String)),
      chunks.flatten.count tok = (chunks.map (fun chunk => chunk.count tok)).sum := by
  intro chunks
  induction chunks with
  | nil => simp
  | cons c rest ih => simp [List.count_append, ih]

/-- `Toolkit::getBagOfWords` (Toolkit.cpp, lines 169-210): the tokens
are split into `numThreads` chunks with `splitTokens` (after the
thread-count normalization), each chunk's task increments its private
map `results[i][token]++` — yielding, per chunk, the count of each
token in that chunk — and after the pool drains the per-chunk counts
are summed per key into `combinedResult` (`combinedResult[token] +=
count`).  A C++ hash map carries no ordering, so it is modelled as its
key → count function; a key is present in the C++ map iff its modelled
count is nonzero.  Each chunk task writes to a private slot
(`results[i]`) and the merge runs only after the pool has fully
drained, so the aggregate is a pure function of the chunks. -/
def getBagOfWords (tokens : List String) (numThreads : Int) (maxThreads : Nat) :
    String → Nat :=
  fun tok =>
    ((splitTokens tokens (resolveThreads numThreads maxThreads)).map
      (fun chunk => chunk.count tok)).sum

/-- C2: for every list of tokens and every requested thread count,
`getBagOfWords` returns the same key-to-count mapping as counting the
tokens serially over the whole input, independent of the chunk
boundaries (commutative accumulation); `maxThreads` is the host's
available parallelism, which is at least 1. -/
theorem getBagOfWords_eq_serial_count (tokens : List String)
    (numThreads : Int) (maxThreads : Nat) (h : 1 ≤ maxThreads) :
    ∀ tok, getBagOfWords tokens numThreads maxThreads tok = tokens.count tok := by
  intro tok
  unfold getBagOfWords
  rw [← count_flatten_eq_sum tok]
  rw [splitTokens_flatten tokens _ (resolveThreads_pos numThreads maxThreads h)]

theorem getBagOfWords_eq_serial_count_witness :
    1 ≤ 6 ∧
      getBagOfWords ["a", "b", "a", "c", "b", "a"] 1 6 "a" = 3 ∧
      getBagOfWords ["a", "b", "a", "c", "b", "a"] 2 6 "a" = 3 ∧
      getBagOfWords ["a", "b", "a", "c", "b", "a"] 3 6 "b" = 2 ∧
      getBagOfWords ["a", "b", "a", "c", "b", "a"] 6 6 "c" = 1 := by
  refine ⟨by decide, ?_, ?_, ?_, ?_⟩ <;>
    rw [getBagOfWords_eq_serial_count _ _ 6 (by decide)] <;> decide

theorem flatten_all_nil {α : Type} :
    ∀ (L : List (List α)), (∀ x ∈ L, x = ([] : List α)) → L.flatten = [] := by
  intro L
  induction L with
  | nil => intro _; rfl
  | cons c rest ih =>
    intro h
    have hc : c = [] := h c (List.mem_cons_self c rest)
    have hr : rest.flatten = [] := ih (fun x hx => h x (List.mem_cons_of_mem c hx))
    simp [hc, hr]

/-- The block decomposition used by `Tokenizer::batchEncode` and
`Tokenizer::batchDecode` (Tokenizer.cpp): with
`blockSize = (numSentences + numThreads - 1) / numThreads`, the loop
over `t` submits one task per block `[t * blockSize,
min(t * blockSize + blockSize, numSentences))`. -/
def blockSlices {α : Type} (l : List α) (blockSize t : Nat) : List (List α) :=
  (List.range t).map (fun i =>
    (l.drop (i * blockSize)).take
      (min (i * blockSize + blockSize) l.length - i * blockSize))

theorem blockSlices_flatten {α : Type} (blockSize : Nat) :
    ∀ (t : Nat) (l : List α), l.length ≤ t * blockSize →
      (blockSlices l blockSize t).flatten = l := by
  intro t
  induction t with
  | zero =>
    intro l h
    have : l = [] := List.eq_nil_of_length_eq_zero (by omega)
    simp [blockSlices, this]
  | succ t ih =>
    intro l h
    have hsucc : (t + 1) * blockSize = t * blockSize + blockSize :=
      Nat.succ_mul t blockSize
    unfold blockSlices
    rw [List.range_succ_eq_map, List.map_cons, List.flatten_cons, List.map_map]
    simp only [Nat.zero_mul, List.drop_zero, Nat.sub_zero, Nat.zero_add]
    rcases le_or_lt blockSize l.length with hbs | hbs
    · have hmap : (List.range t).map
          ((fun i => (l.drop (i * blockSize)).take
            (min (i * blockSize + blockSize) l.length - i * blockSize)) ∘
              (fun x => x + 1))
          = blockSlices (l.drop blockSize) blockSize t := by
        apply List.map_congr_left
        intro i _
        have hmul : (i + 1) * blockSize = i * blockSize + blockSize :=
          Nat.succ_mul i blockSize
        have hdrop : l.drop ((i + 1) * blockSize)
            = (l.drop blockSize).drop (i * blockSize) := by
          rw [List.drop_drop]
          congr 1
          omega
        have hldrop : (l.drop blockSize).length = l.length - blockSize :=
          List.length_drop blockSize l
        have htake : min ((i + 1) * blockSize + blockSize) l.length
              - (i + 1) * blockSize
            = min (i * blockSize + blockSize) (l.drop blockSize).length
              - i * blockSize := by
          rw [hldrop]
          omega
        show (l.drop ((i + 1) * blockSize)).take
            (min ((i + 1) * blockSize + blockSize) l.length - (i + 1) * blockSize)
          = ((l.drop blockSize).drop (i * blockSize)).take
            (min (i * blockSize + blockSize) (l.drop blockSize).length
              - i * blockSize)
        rw [hdrop, htake]
      rw [hmap, ih (l.drop blockSize) (by rw [List.length_drop]; omega)]
      have hmin : min blockSize l.length = blockSize := Nat.min_eq_left hbs
      rw [hmin, List.take_append_drop]
    · have hhead : l.take (min blockSize l.length) = l := by
        rw [Nat.min_eq_right (Nat.le_of_lt hbs), List.take_length]
      have htail : ((List.range t).map
          ((fun i => (l.drop (i * blockSize)).take
            (min (i * blockSize + blockSize) l.length - i * blockSize)) ∘
              (fun x => x + 1))).flatten = [] := by
        apply flatten_all_nil
        intro x hx
        obtain ⟨i, _, rfl⟩ := List.mem_map.mp hx
        have hge : blockSize ≤ (i + 1) * blockSize := by
          have hsm : (i + 1) * blockSize = i * blockSize + blockSize :=
            Nat.succ_mul i blockSize
          omega
        have hnil : l.drop ((i + 1) * blockSize) = [] :=
          List.drop_eq_nil_of_le (by omega)
        show (l.drop ((i + 1) * blockSize)).take _ = []
        rw [hnil, List.take_nil]
      rw [htail, hhead, List.append_nil]

/-- Assignment `map[k] = v` on a `std::unordered_map<std::string, int>`
modelled as an update of its lookup function. -/
def insertTok (m : String → Option Int) (k : String) (v : Int) :
    String → Option Int :=
  fun s => if s = k then some v else m s

/-- Constructor loop of `Tokenizer::Tokenizer` (Tokenizer.cpp, lines
7-29): `for (i = 0; i < vocab.size(); ++i) tokenToId[vocab[i]] = i;` —
for a duplicated token the later index overwrites the earlier one.
Arguments: remaining vocabulary entries, index of the first of them,
map built so far. -/
def mkTokenToIdAux : List String → Nat → (String → Option Int) → (String → Option Int)
  | [], _, m => m
  | v :: rest, i, m => mkTokenToIdAux rest (i + 1) (insertTok m v i)

def mkTokenToId (vocab : List String) : String → Option Int :=
  mkTokenToIdAux vocab 0 (fun _ => none)

/-- Index of the last occurrence of `t` in `l`, if any. -/
def lastIdx : List String → String → Option Nat
  | [], _ => none
  | v :: rest, t =>
    match lastIdx rest t with
    | some j => some (j + 1)
    | none => if v = t then some 0 else none

theorem mkTokenToIdAux_eq :
    ∀ (l : List String) (i : Nat) (m : String → Option Int) (t : String),
      mkTokenToIdAux l i m t
        = match lastIdx l t with
          | some j => some ((i + j : Nat) : Int)
          | none => m t := by
  intro l
  induction l with
  | nil => intro i m t; rfl
  | cons v rest ih =>
    intro i m t
    show mkTokenToIdAux rest (i + 1) (insertTok m v i) t = _
    rw [ih]
    cases hrest : lastIdx rest t with
    | some j =>
      have hgoal : lastIdx (v :: rest) t = some (j + 1) := by
        simp [lastIdx, hrest]
      rw [hgoal]
      have he : i + 1 + j = i + (j + 1) := by omega
      simp [he]
    | none =>
      have hgoal : lastIdx (v :: rest) t
          = if v = t then some 0 else none := by
        simp [lastIdx, hrest]
      rw [hgoal]
      by_cases hv : v = t
      · subst hv
        simp [insertTok]
      · rw [if_neg hv]
        show insertTok m v (i : Int) t = m t
        unfold insertTok
        rw [if_neg (fun h => hv h.symm)]

theorem mkTokenToId_eq (vocab : List String) (t : String) :
    mkTokenToId vocab t
      = match lastIdx vocab t with
        | some j => some ((j : Nat) : Int)
        | none => none := by
  unfold mkTokenToId
  rw [mkTokenToIdAux_eq]
  cases lastIdx vocab t with
  | some j => simp
  | none => rfl

theorem lastIdx_lt_length :
    ∀ (l : List String) (t : String) (j : Nat),
      lastIdx l t = some j → j < l.length := by
  intro l
  induction l with
  | nil => intro t j h; exact absurd h (by simp [lastIdx])
  | cons v rest ih =>
    intro t j h
    unfold lastIdx at h
    cases hrest : lastIdx rest t with
    | some j0 =>
      rw [hrest] at h
      have := ih t j0 hrest
      simp at h
      simp [List.length_cons]
      omega
    | none =>
      rw [hrest] at h
      by_cases hv : v = t
      · rw [if_pos hv] at h
        simp at h
        simp [← h]
      · rw [if_neg hv] at h
        exact absurd h (by simp)

theorem lastIdx_getD :
    ∀ (l : List String) (t : String) (j : Nat),
      lastIdx l t = some j → l.getD j "" = t := by
  intro l
  induction l with
  | nil => intro t j h; exact absurd h (by simp [lastIdx])
  | cons v rest ih =>
    intro t j h
    unfold lastIdx at h
    cases hrest : lastIdx rest t with
    | some j0 =>
      rw [hrest] at h
      simp at h
      subst h
      show rest.getD j0 "" = t
      exact ih t j0 hrest
    | none =>
      rw [hrest] at h
      by_cases hv : v = t
      · rw [if_pos hv] at h
        simp at h
        subst h
        simpa using hv
      · rw [if_neg hv] at h
        exact absurd h (by simp)

theorem lastIdx_none_iff :
    ∀ (l : List String) (t : String), lastIdx l t = none ↔ t ∉ l := by
  intro l
  induction l with
  | nil => intro t; simp [lastIdx]
  | cons v rest ih =>
    intro t
    unfold lastIdx
    cases hrest : lastIdx rest t with
    | some j =>
      simp only []
      constructor
      · intro h; exact absurd h (by simp)
      · intro h
        have : t ∈ rest := by
          by_contra hmem
          exact absurd hrest (by rw [(ih t).mpr hmem]; simp)
        exact absurd (List.mem_cons_of_mem v this) h
    | none =>
      have hmem : t ∉ rest := (ih t).mp hrest
      by_cases hv : v = t
      · rw [if_pos hv]
        constructor
        · intro h; exact absurd h (by simp)
        · intro h; exact absurd (hv ▸ List.mem_cons_self v rest) h
      · rw [if_neg hv]
        constructor
        · intro _ hin
          rcases List.mem_cons.mp hin with h1 | h2
          · exact hv h1.symm
          · exact hmem h2
        · intro _; rfl

/-- State of a constructed `Tokenizer` (Tokenizer.h): the vocabulary
vector, the token → id hash map (modelled as its lookup function), the
id → token vector, and the id of the `<UNK>` token. -/
structure Tokenizer where
  vocab : List String
  tokenToId : String → Option Int
  idToToken : List String
  unknownId : Int

/-- `Tokenizer::Tokenizer` (Tokenizer.cpp, lines 7-29): fills
`tokenToId` from the vocabulary list (later duplicate entries
overwrite earlier ones); if "<UNK>" is not already a key, appends it
to `vocab` and `idToToken` and maps it to the new last index,
otherwise `unknownId` is its existing id. -/
def mkTokenizer (vocabList : List String) : Tokenizer :=
  match mkTokenToId vocabList "<UNK>" with
  | none =>
    { vocab := vocabList ++ ["<UNK>"]
      tokenToId := insertTok (mkTokenToId vocabList) "<UNK>" (vocabList.length : Int)
      idToToken := vocabList ++ ["<UNK>"]
      unknownId := (vocabList.length : Int) }
  | some j =>
    { vocab := vocabList
      tokenToId := mkTokenToId vocabList
      idToToken := vocabList
      unknownId := j }

/-- Body of the `Tokenizer::encode` loop (Tokenizer.cpp, lines 31-54):
a known token maps to its id, an unknown one to `unknownId`. -/
def encodeOne (tk : Tokenizer) (token : String) : Int :=
  match tk.tokenToId token with
  | some i => i
  | none => tk.unknownId

/-- `Tokenizer::encode` (Tokenizer.cpp, lines 31-54). -/
def encode (tk : Tokenizer) (tokens : List String) : List Int :=
  tokens.map (encodeOne tk)

/-- Runs `f` over the list in order, stopping at the first error —
the shape of every loop in Tokenizer.cpp whose body can throw. -/
def tryMapE {α β : Type} (f : α → Except String β) : List α → Except String (List β)
  | [] => Except.ok []
  | a :: rest =>
    match f a with
    | Except.error e => Except.error e
    | Except.ok b =>
      match tryMapE f rest with
      | Except.error e => Except.error e
      | Except.ok bs => Except.ok (b :: bs)

/-- Body of the `Tokenizer::decode` loop (Tokenizer.cpp, lines 56-79):
an id inside `[0, idToToken.size())` maps to its token, any other id
throws `std::out_of_range("Invalid token ID in decode.")`. -/
def decodeOne (tk : Tokenizer) (id : Int) : Except String String :=
  if 0 ≤ id ∧ id < (tk.idToToken.length : Int) then
    Except.ok (tk.idToToken.getD id.toNat "")
  else Except.error "Invalid token ID in decode."

/-- `Tokenizer::decode` (Tokenizer.cpp, lines 56-79), with the thrown
exception modelled as the error branch of `Except`. -/
def decode (tk : Tokenizer) (ids : List Int) : Except String (List String) :=
  tryMapE (decodeOne tk) ids

theorem tryMapE_map {α β γ : Type} (f : β → Except String γ) (g : α → β) :
    ∀ (l : List α), tryMapE f (l.map g) = tryMapE (fun a => f (g a)) l := by
  intro l
  induction l with
  | nil => rfl
  | cons a rest ih => simp only [List.map_cons, tryMapE, ih]

theorem tryMapE_ok_of_forall {α β : Type} (f : α → Except String β) (g : α → β) :
    ∀ (l : List α), (∀ a ∈ l, f a = Except.ok (g a)) →
      tryMapE f l = Except.ok (l.map g) := by
  intro l
  induction l with
  | nil => intro _; rfl
  | cons a rest ih =>
    intro h
    have ha : f a = Except.ok (g a) := h a (List.mem_cons_self a rest)
    have hr : tryMapE f rest = Except.ok (rest.map g) :=
      ih (fun x hx => h x (List.mem_cons_of_mem a hx))
    simp only [tryMapE, ha, hr, List.map_cons]

theorem encodeOne_spec (vocabList : List String) (t : String) :
    0 ≤ encodeOne (mkTokenizer vocabList) t ∧
      encodeOne (mkTokenizer vocabList) t
        < ((mkTokenizer vocabList).idToToken.length : Int) ∧
      (mkTokenizer vocabList).idToToken.getD
          (encodeOne (mkTokenizer vocabList) t).toNat ""
        = (if t ∈ vocabList then t else "<UNK>") := by
  cases hu : mkTokenToId vocabList "<UNK>" with
  | some j =>
    have htk : mkTokenizer vocabList
        = { vocab := vocabList, tokenToId := mkTokenToId vocabList,
            idToToken := vocabList, unknownId := j } := by
      unfold mkTokenizer
      rw [hu]
    have hju : ∃ j0 : Nat, lastIdx vocabList "<UNK>" = some j0 ∧ j = (j0 : Int) := by
      have := mkTokenToId_eq vocabList "<UNK>"
      rw [hu] at this
      cases hl : lastIdx vocabList "<UNK>" with
      | some j0 =>
        rw [hl] at this
        simp at this
        exact ⟨j0, rfl, this⟩
      | none => rw [hl] at this; exact absurd this (by simp)
    obtain ⟨j0, hl, rfl⟩ := hju
    have hj0len : j0 < vocabList.length := lastIdx_lt_length _ _ _ hl
    have hj0get : vocabList.getD j0 "" = "<UNK>" := lastIdx_getD _ _ _ hl
    rw [htk]
    show 0 ≤ encodeOne _ t ∧ _
    cases hlt : lastIdx vocabList t with
    | some i0 =>
      have hmem : t ∈ vocabList := by
        by_contra hmem
        rw [(lastIdx_none_iff vocabList t).mpr hmem] at hlt
        exact absurd hlt (by simp)
      have henc : encodeOne
          { vocab := vocabList, tokenToId := mkTokenToId vocabList,
            idToToken := vocabList, unknownId := ((j0 : Nat) : Int) } t
          = ((i0 : Nat) : Int) := by
        unfold encodeOne
        show (match mkTokenToId vocabList t with
          | some i => i
          | none => ((j0 : Nat) : Int)) = _
        rw [mkTokenToId_eq, hlt]
      rw [henc]
      refine ⟨by positivity, ?_, ?_⟩
      · show ((i0 : Nat) : Int) < (vocabList.length : Int)
        exact_mod_cast lastIdx_lt_length _ _ _ hlt
      · show vocabList.getD ((i0 : Nat) : Int).toNat "" = _
        rw [Int.toNat_natCast, if_pos hmem]
        exact lastIdx_getD _ _ _ hlt
    | none =>
      have hmem : t ∉ vocabList := (lastIdx_none_iff vocabList t).mp hlt
      have henc : encodeOne
          { vocab := vocabList, tokenToId := mkTokenToId vocabList,
            idToToken := vocabList, unknownId := ((j0 : Nat) : Int) } t
          = ((j0 : Nat) : Int) := by
        unfold encodeOne
        show (match mkTokenToId vocabList t with
          | some i => i
          | none => ((j0 : Nat) : Int)) = _
        rw [mkTokenToId_eq, hlt]
      rw [henc]
      refine ⟨by positivity, ?_, ?_⟩
      · exact_mod_cast hj0len
      · rw [Int.toNat_natCast, if_neg hmem]
        exact hj0get
  | none =>
    have htk : mkTokenizer vocabList
        = { vocab := vocabList ++ ["<UNK>"],
            tokenToId := insertTok (mkTokenToId vocabList) "<UNK>"
              (vocabList.length : Int),
            idToToken := vocabList ++ ["<UNK>"],
            unknownId := (vocabList.length : Int) } := by
      unfold mkTokenizer
      rw [hu]
    have hulen : (vocabList ++ ["<UNK>"]).length = vocabList.length + 1 := by
      simp
    have hgetlast : (vocabList ++ ["<UNK>"]).getD vocabList.length "" = "<UNK>" := by
      rw [List.getD_append_right vocabList ["<UNK>"] "" vocabList.length
        (Nat.le_refl _)]
      simp
    rw [htk]
    by_cases hun : t = "<UNK>"
    · have hmem : t ∉ vocabList := by
        subst hun
        have := mkTokenToId_eq vocabList "<UNK>"
        rw [hu] at this
        cases hl : lastIdx vocabList "<UNK>" with
        | some j0 => rw [hl] at this; exact absurd this (by simp)
        | none => exact (lastIdx_none_iff vocabList "<UNK>").mp hl
      have henc : encodeOne
          { vocab := vocabList ++ ["<UNK>"],
            tokenToId := insertTok (mkTokenToId vocabList) "<UNK>"
              (vocabList.length : Int),
            idToToken := vocabList ++ ["<UNK>"],
            unknownId := (vocabList.length : Int) } t
          = (vocabList.length : Int) := by
        show (match (if t = "<UNK>" then some (vocabList.length : Int)
            else mkTokenToId vocabList t) with
          | some i => i
          | none => (vocabList.length : Int)) = (vocabList.length : Int)
        rw [if_pos hun]
      rw [henc]
      refine ⟨by positivity, ?_, ?_⟩
      · show (vocabList.length : Int) < ((vocabList ++ ["<UNK>"]).length : Int)
        rw [hulen]
        exact_mod_cast Nat.lt_succ_self _
      · show (vocabList ++ ["<UNK>"]).getD (vocabList.length : Int).toNat "" = _
        rw [Int.toNat_natCast, if_neg hmem, hgetlast]
    · have henc1 : encodeOne
          { vocab := vocabList ++ ["<UNK>"],
            tokenToId := insertTok (mkTokenToId vocabList) "<UNK>"
              (vocabList.length : Int),
            idToToken := vocabList ++ ["<UNK>"],
            unknownId := (vocabList.length : Int) } t
          = (match mkTokenToId vocabList t with
            | some i => i
            | none => (vocabList.length : Int)) := by
        show (match (if t = "<UNK>" then some (vocabList.length : Int)
            else mkTokenToId vocabList t) with
          | some i => i
          | none => (vocabList.length : Int)) = _
        rw [if_neg hun]
      rw [henc1]
      cases hlt : lastIdx vocabList t with
      | some i0 =>
        have hmem : t ∈ vocabList := by
          by_contra hmem
          rw [(lastIdx_none_iff vocabList t).mpr hmem] at hlt
          exact absurd hlt (by simp)
        have hi0len : i0 < vocabList.length := lastIdx_lt_length _ _ _ hlt
        have hval : (match mkTokenToId vocabList t with
            | some i => i
            | none => (vocabList.length : Int)) = ((i0 : Nat) : Int) := by
          rw [mkTokenToId_eq, hlt]
        rw [hval]
        refine ⟨by positivity, ?_, ?_⟩
        · show ((i0 : Nat) : Int) < ((vocabList ++ ["<UNK>"]).length : Int)
          rw [hulen]
          exact_mod_cast Nat.lt_succ_of_lt hi0len
        · show (vocabList ++ ["<UNK>"]).getD ((i0 : Nat) : Int).toNat "" = _
          rw [Int.toNat_natCast, if_pos hmem,
            List.getD_append vocabList ["<UNK>"] "" i0 hi0len]
          exact lastIdx_getD _ _ _ hlt
      | none =>
        have hmem : t ∉ vocabList := (lastIdx_none_iff vocabList t).mp hlt
        have hval : (match mkTokenToId vocabList t with
            | some i => i
            | none => (vocabList.length : Int)) = (vocabList.length : Int) := by
          rw [mkTokenToId_eq, hlt]
        rw [hval]
        refine ⟨by positivity, ?_, ?_⟩
        · show (vocabList.length : Int) < ((vocabList ++ ["<UNK>"]).length : Int)
          rw [hulen]
          exact_mod_cast Nat.lt_succ_self _
        · show (vocabList ++ ["<UNK>"]).getD (vocabList.length : Int).toNat "" = _
          rw [Int.toNat_natCast, if_neg hmem, hgetlast]

/-- C10: for every Tokenizer constructed from any vocabulary list and
every list of tokens, `decode (encode tokens)` never throws and equals
the input list with each token absent from the vocabulary replaced by
"<UNK>"; in particular every id produced by `encode` is a valid index
into the id-to-token table. -/
theorem decode_encode_roundtrip (vocabList tokens : List String) :
    decode (mkTokenizer vocabList) (encode (mkTokenizer vocabList) tokens)
      = Except.ok (tokens.map (fun t => if t ∈ vocabList then t else "<UNK>")) ∧
    ∀ id ∈ encode (mkTokenizer vocabList) tokens,
      0 ≤ id ∧ id < ((mkTokenizer vocabList).idToToken.length : Int) := by
  constructor
  · unfold decode encode
    rw [tryMapE_map]
    apply tryMapE_ok_of_forall
    intro t _
    obtain ⟨h0, h1, h2⟩ := encodeOne_spec vocabList t
    unfold decodeOne
    rw [if_pos ⟨h0, h1⟩, h2]
  · intro id hid
    obtain ⟨t, _, rfl⟩ := List.mem_map.mp hid
    obtain ⟨h0, h1, _⟩ := encodeOne_spec vocabList t
    exact ⟨h0, h1⟩

theorem decode_encode_roundtrip_witness :
    decode (mkTokenizer ["a"]) (encode (mkTokenizer ["a"]) ["a", "b"])
      = Except.ok (["a", "b"].map (fun t => if t ∈ ["a"] then t else "<UNK>")) :=
  (decode_encode_roundtrip ["a"] ["a", "b"]).1

theorem ceilDiv_mul_ge (N t : Nat) (ht : 1 ≤ t) : N ≤ t * ((N + t - 1) / t) := by
  have hdm := Nat.div_add_mod (N + t - 1) t
  have hmod := Nat.mod_lt (N + t - 1) (show 0 < t by omega)
  omega

/-- `Tokenizer::batchEncode` (Tokenizer.cpp, lines 81-127): after the
thread-count normalization, `blockSize = (numSentences + numThreads - 1)
/ numThreads`; one task per block index `t` encodes the sentences of
`[t * blockSize, min(t * blockSize + blockSize, numSentences))` in
order, each task writing its own future; the futures are awaited in
submission order and their block results concatenated, so the
aggregate is the ordered concatenation of the per-block encodings
regardless of completion order. -/
def batchEncode (tk : Tokenizer) (sentences : List (List String))
    (numThreads : Int) (maxThreads : Nat) : List (List Int) :=
  ((blockSlices sentences
      ((sentences.length + resolveThreads numThreads maxThreads - 1) /
        resolveThreads numThreads maxThreads)
      (resolveThreads numThreads maxThreads)).map
    (fun block => block.map (encode tk))).flatten

/-- `Tokenizer::batchDecode` (Tokenizer.cpp, lines 129-175): same block
decomposition as `batchEncode`; each block's task decodes its
sentences in order (an invalid id throws, and the exception is stored
in that block's future); `future.get()` is called in submission order,
so the first failing block in block order propagates, otherwise the
block results are concatenated. -/
def flattenParts {β : Type} (r : Except String (List (List β))) :
    Except String (List β) :=
  match r with
  | Except.error e => Except.error e
  | Except.ok parts => Except.ok parts.flatten

def batchDecode (tk : Tokenizer) (encodedSentences : List (List Int))
    (numThreads : Int) (maxThreads : Nat) : Except String (List (List String)) :=
  flattenParts (tryMapE (fun block => tryMapE (decode tk) block)
    (blockSlices encodedSentences
      ((encodedSentences.length + resolveThreads numThreads maxThreads - 1) /
        resolveThreads numThreads maxThreads)
      (resolveThreads numThreads maxThreads)))

/-- Modelled from the spec: the serial reference for `batchEncode` —
apply the per-item function (encode one sentence) to the items in
their original input order. -/
def batchEncodeSerial (tk : Tokenizer) (sentences : List (List String)) :
    List (List Int) :=
  sentences.map (encode tk)

/-- Modelled from the spec: the serial reference for `batchDecode` —
apply the per-item function (decode one sentence) to the items in
their original input order, stopping at the first failure. -/
def batchDecodeSerial (tk : Tokenizer) (encodedSentences : List (List Int)) :
    Except String (List (List String)) :=
  tryMapE (decode tk) encodedSentences

theorem tryMapE_append {α β : Type} (f : α → Except String β) :
    ∀ (l₁ l₂ : List α),
      tryMapE f (l₁ ++ l₂)
        = match tryMapE f l₁ with
          | Except.error e => Except.error e
          | Except.ok b₁ =>
            match tryMapE f l₂ with
            | Except.error e => Except.error e
            | Except.ok b₂ => Except.ok (b₁ ++ b₂) := by
  intro l₁
  induction l₁ with
  | nil =>
    intro l₂
    show tryMapE f l₂ = _
    cases tryMapE f l₂ <;> rfl
  | cons a rest ih =>
    intro l₂
    show (match f a with
      | Except.error e => Except.error e
      | Except.ok b =>
        match tryMapE f (rest ++ l₂) with
        | Except.error e => Except.error e
        | Except.ok bs => Except.ok (b :: bs)) = _
    cases ha : f a with
    | error e => simp [tryMapE, ha]
    | ok b =>
      rw [ih]
      cases h₁ : tryMapE f rest with
      | error e => simp [tryMapE, ha, h₁]
      | ok b₁ =>
        cases h₂ : tryMapE f l₂ with
        | error e => simp [tryMapE, ha, h₁]
        | ok b₂ => simp [tryMapE, ha, h₁]

theorem tryMapE_chunks {α β : Type} (f : α → Except String β) :
    ∀ (chunks : List (List α)),
      flattenParts (tryMapE (fun c => tryMapE f c) chunks)
        = tryMapE f chunks.flatten := by
  intro chunks
  induction chunks with
  | nil => rfl
  | cons c rest ih =>
    rw [List.flatten_cons, tryMapE_append]
    cases hc : tryMapE f c with
    | error e => simp [tryMapE, flattenParts, hc]
    | ok b =>
      rw [← ih]
      cases hr : tryMapE (fun c => tryMapE f c) rest with
      | error e => simp [tryMapE, flattenParts, hc, hr]
      | ok parts => simp [tryMapE, flattenParts, hc, hr]

/-- C1: for every vocabulary (any constructed `Tokenizer`), every batch
of sentences, and every requested thread count, `batchEncode` and
`batchDecode` — built on ordered concatenation of the per-block
results — return exactly what applying `encode` (resp. `decode`)
serially to the items in their original input order returns.
`maxThreads` is the host's available parallelism (at least 1). -/
theorem batch_matches_serial (tk : Tokenizer) (sentences : List (List String))
    (encodedSentences : List (List Int)) (numThreads : Int) (maxThreads : Nat)
    (h : 1 ≤ maxThreads) :
    batchEncode tk sentences numThreads maxThreads
        = batchEncodeSerial tk sentences ∧
      batchDecode tk encodedSentences numThreads maxThreads
        = batchDecodeSerial tk encodedSentences := by
  have ht := resolveThreads_pos numThreads maxThreads h
  constructor
  · unfold batchEncode batchEncodeSerial
    rw [← List.map_flatten,
      blockSlices_flatten _ _ sentences (ceilDiv_mul_ge _ _ ht)]
  · unfold batchDecode batchDecodeSerial
    rw [tryMapE_chunks (decode tk),
      blockSlices_flatten _ _ encodedSentences (ceilDiv_mul_ge _ _ ht)]

theorem batch_matches_serial_witness :
    1 ≤ 2 ∧
      batchEncode (mkTokenizer ["a"]) [["a"], ["b"]] 2 2
        = batchEncodeSerial (mkTokenizer ["a"]) [["a"], ["b"]] ∧
      batchDecode (mkTokenizer ["a"]) [[0], [5]] 2 2
        = batchDecodeSerial (mkTokenizer ["a"]) [[0], [5]] :=
  ⟨by decide,
    (batch_matches_serial (mkTokenizer ["a"]) [["a"], ["b"]] [[0], [5]] 2 2
      (by decide)).1,
    (batch_matches_serial (mkTokenizer ["a"]) [["a"], ["b"]] [[0], [5]] 2 2
      (by decide)).2⟩

/-- Inner loop of a `getEmbeddings` chunk task (Toolkit.cpp, lines
284-334): `results[i][token] = embedding;` for each token of the
chunk in order, where each embedding is drawn from the task's own
generator.  The generated values themselves are random floats; since
the merge semantics does not depend on them, the j-th value drawn by
the chunk's generator is abstracted as `g j`.  Arguments: remaining
chunk tokens, position of the first of them, map built so far. -/
def buildChunkMapAux {V : Type} (g : Nat → V) :
    List String → Nat → (String → Option V) → (String → Option V)
  | [], _, m => m
  | tok :: rest, j, m =>
    buildChunkMapAux g rest (j + 1) (fun s => if s = tok then some (g j) else m s)

def buildChunkMap {V : Type} (g : Nat → V) (chunk : List String) :
    String → Option V :=
  buildChunkMapAux g chunk 0 (fun _ => none)

/-- The per-chunk result slots `results[0..numThreads)` of
`getEmbeddings`, each computed by one task with its own generator
(`g i` is chunk `i`'s generator stream).  Slots are disjoint, so the
vector of chunk maps is a pure function of the chunks. -/
def chunkMaps {V : Type} (g : Nat → Nat → V) :
    List (List String) → Nat → List (String → Option V)
  | [], _ => []
  | c :: rest, i => buildChunkMap (g i) c :: chunkMaps g rest (i + 1)

/-- Final merge loop of `getEmbeddings` (Toolkit.cpp):
`for (result : results) for ((token, embedding) : result)
combinedEmbeddings[token] = embedding;` — the slots are visited in
index order 0, 1, …, after the pool has fully drained, and assignment
overwrites, so for a duplicated token a later (higher-indexed) chunk
overwrites an earlier one; completion order cannot influence this. -/
def mergeMapsAux {V : Type} :
    List (String → Option V) → (String → Option V) → (String → Option V)
  | [], acc => acc
  | m :: rest, acc =>
    mergeMapsAux rest (fun s =>
      match m s with
      | some v => some v
      | none => acc s)

def mergeMaps {V : Type} (maps : List (String → Option V)) : String → Option V :=
  mergeMapsAux maps (fun _ => none)

/-- `Toolkit::getEmbeddings` (Toolkit.cpp, lines 284-334): the tokens
are split into chunks with `splitTokens`; chunk `i` assigns each of
its tokens a value from its own generator stream `g i`; the merge
keeps, for each token, the value of the highest-indexed chunk
containing it. -/
def getEmbeddings {V : Type} (tokens : List String) (g : Nat → Nat → V)
    (numThreads : Int) (maxThreads : Nat) : String → Option V :=
  mergeMaps
    (chunkMaps g (splitTokens tokens (resolveThreads numThreads maxThreads)) 0)

theorem mergeMapsAux_spec {V : Type} :
    ∀ (maps : List (String → Option V)) (acc : String → Option V) (s : String),
      mergeMapsAux maps acc s
        = match (mergeMaps maps) s with
          | some v => some v
          | none => acc s := by
  intro maps
  induction maps with
  | nil => intro acc s; rfl
  | cons m rest ih =>
    intro acc s
    rw [show mergeMaps (m :: rest) s
        = mergeMapsAux rest (fun s =>
            match m s with
            | some v => some v
            | none => none) s from rfl]
    rw [show mergeMapsAux (m :: rest) acc s
        = mergeMapsAux rest (fun s =>
            match m s with
            | some v => some v
            | none => acc s) s from rfl]
    rw [ih, ih]
    cases mergeMaps rest s with
    | some v => rfl
    | none => cases m s <;> rfl

theorem mergeMaps_cons {V : Type} (m : String → Option V)
    (rest : List (String → Option V)) (s : String) :
    mergeMaps (m :: rest) s
      = match mergeMaps rest s with
        | some v => some v
        | none => m s := by
  rw [show mergeMaps (m :: rest) s
      = mergeMapsAux rest (fun s =>
          match m s with
          | some v => some v
          | none => none) s from rfl]
  rw [mergeMapsAux_spec]
  cases mergeMaps rest s with
  | some v => rfl
  | none => cases m s <;> rfl

theorem buildChunkMapAux_not_mem {V : Type} (g : Nat → V) :
    ∀ (l : List String) (j : Nat) (m : String → Option V) (tok : String),
      tok ∉ l → buildChunkMapAux g l j m tok = m tok := by
  intro l
  induction l with
  | nil => intro j m tok _; rfl
  | cons t rest ih =>
    intro j m tok h
    have ht : tok ≠ t := fun he => h (he ▸ List.mem_cons_self t rest)
    have hr : tok ∉ rest := fun hin => h (List.mem_cons_of_mem t hin)
    show buildChunkMapAux g rest (j + 1) _ tok = m tok
    rw [ih (j + 1) _ tok hr]
    exact if_neg ht

theorem buildChunkMapAux_isSome {V : Type} (g : Nat → V) :
    ∀ (l : List String) (j : Nat) (m : String → Option V) (tok : String),
      tok ∈ l → (buildChunkMapAux g l j m tok).isSome = true := by
  intro l
  induction l with
  | nil => intro j m tok h; exact absurd h (by simp)
  | cons t rest ih =>
    intro j m tok h
    by_cases hr : tok ∈ rest
    · exact ih (j + 1) _ tok hr
    · have ht : tok = t := by
        rcases List.mem_cons.mp h with h1 | h2
        · exact h1
        · exact absurd h2 hr
      show (buildChunkMapAux g rest (j + 1) _ tok).isSome = true
      rw [buildChunkMapAux_not_mem g rest (j + 1) _ tok hr, if_pos ht]
      rfl

theorem buildChunkMap_isSome {V : Type} (g : Nat → V) (chunk : List String)
    (tok : String) (h : tok ∈ chunk) :
    (buildChunkMap g chunk tok).isSome = true :=
  buildChunkMapAux_isSome g chunk 0 _ tok h

theorem buildChunkMap_not_mem {V : Type} (g : Nat → V) (chunk : List String)
    (tok : String) (h : tok ∉ chunk) :
    buildChunkMap g chunk tok = none :=
  buildChunkMapAux_not_mem g chunk 0 _ tok h

theorem mergeMaps_chunkMaps_none {V : Type} (g : Nat → Nat → V) :
    ∀ (chunks : List (List String)) (i0 : Nat) (tok : String),
      (∀ c ∈ chunks, tok ∉ c) →
      mergeMaps (chunkMaps g chunks i0) tok = none := by
  intro chunks
  induction chunks with
  | nil => intro i0 tok _; rfl
  | cons c rest ih =>
    intro i0 tok h
    show mergeMaps (buildChunkMap (g i0) c :: chunkMaps g rest (i0 + 1)) tok = none
    rw [mergeMaps_cons,
      ih (i0 + 1) tok (fun x hx => h x (List.mem_cons_of_mem c hx)),
      buildChunkMap_not_mem (g i0) c tok (h c (List.mem_cons_self c rest))]

theorem mergeMaps_chunkMaps {V : Type} (g : Nat → Nat → V) :
    ∀ (chunks : List (List String)) (i i0 : Nat) (tok : String),
      i < chunks.length → tok ∈ chunks.getD i [] →
      (∀ j, i < j → j < chunks.length → tok ∉ chunks.getD j []) →
      mergeMaps (chunkMaps g chunks i0) tok
        = buildChunkMap (g (i0 + i)) (chunks.getD i []) tok := by
  intro chunks
  induction chunks with
  | nil => intro i i0 tok hi _ _; exact absurd hi (by simp)
  | cons c rest ih =>
    intro i i0 tok hi hmem hlast
    show mergeMaps (buildChunkMap (g i0) c :: chunkMaps g rest (i0 + 1)) tok = _
    rw [mergeMaps_cons]
    cases i with
    | zero =>
      have hrest : ∀ x ∈ rest, tok ∉ x := by
        intro x hx
        obtain ⟨j0, hj0, hget⟩ := List.mem_iff_getElem.mp hx
        have hgd : (c :: rest).getD (j0 + 1) [] = x := by
          rw [List.getD_cons_succ]
          rw [List.getD_eq_getElem rest [] hj0]
          exact hget
        have := hlast (j0 + 1) (by omega) (by simp; omega)
        rw [hgd] at this
        exact this
      rw [mergeMaps_chunkMaps_none g rest (i0 + 1) tok hrest]
      simp only [Nat.add_zero, List.getD_cons_zero]
    | succ i' =>
      have hi' : i' < rest.length := by simp at hi; omega
      have hmem' : tok ∈ rest.getD i' [] := by
        rw [List.getD_cons_succ] at hmem
        exact hmem
      have hlast' : ∀ j, i' < j → j < rest.length → tok ∉ rest.getD j [] := by
        intro j h1 h2
        have := hlast (j + 1) (by omega) (by simp; omega)
        rw [List.getD_cons_succ] at this
        exact this
      have hrec := ih i' (i0 + 1) tok hi' hmem' hlast'
      rw [hrec]
      have hsome : (buildChunkMap (g (i0 + 1 + i')) (rest.getD i' []) tok).isSome
          = true := buildChunkMap_isSome _ _ tok hmem'
      obtain ⟨v, hv⟩ := Option.isSome_iff_exists.mp hsome
      rw [hv]
      have harg : i0 + 1 + i' = i0 + (i' + 1) := by omega
      rw [List.getD_cons_succ, ← harg, hv]

/-- C8: in the `getEmbeddings` key-generation merge, if the same token
appears in more than one chunk, the final result keeps exactly one
value for that token — the one computed by the highest-indexed chunk
containing it (the merge visits the disjoint per-chunk result slots in
fixed index order after the pool has drained, and assignment
overwrites, so the outcome never depends on which chunk finished
last). -/
theorem getEmbeddings_last_chunk_wins {V : Type} (tokens : List String)
    (g : Nat → Nat → V) (numThreads : Int) (maxThreads : Nat) (tok : String)
    (i : Nat)
    (hi : i < (splitTokens tokens (resolveThreads numThreads maxThreads)).length)
    (hmem : tok ∈ (splitTokens tokens (resolveThreads numThreads maxThreads)).getD i [])
    (hlast : ∀ j, i < j →
      j < (splitTokens tokens (resolveThreads numThreads maxThreads)).length →
      tok ∉ (splitTokens tokens (resolveThreads numThreads maxThreads)).getD j []) :
    getEmbeddings tokens g numThreads maxThreads tok
        = buildChunkMap (g i)
            ((splitTokens tokens (resolveThreads numThreads maxThreads)).getD i [])
            tok ∧
      (getEmbeddings tokens g numThreads maxThreads tok).isSome = true := by
  have h := mergeMaps_chunkMaps g
    (splitTokens tokens (resolveThreads numThreads maxThreads)) i 0 tok hi hmem hlast
  have hz : (0 : Nat) + i = i := Nat.zero_add i
  rw [hz] at h
  refine ⟨h, ?_⟩
  show (mergeMaps _ tok).isSome = true
  rw [h]
  exact buildChunkMap_isSome _ _ tok hmem

theorem getEmbeddings_last_chunk_wins_witness :
    1 < (splitTokens ["a", "b", "a"] 2).length ∧
      "a" ∈ (splitTokens ["a", "b", "a"] 2).getD 1 [] ∧
      getEmbeddings ["a", "b", "a"] (fun i j => 10 * i + j) 2 2 "a"
        = buildChunkMap ((fun i j => 10 * i + j) 1)
            ((splitTokens ["a", "b", "a"] 2).getD 1 []) "a" := by
  have hl : (splitTokens ["a", "b", "a"] (resolveThreads 2 2)).length = 2 := by
    decide
  refine ⟨by decide, by decide, ?_⟩
  exact (getEmbeddings_last_chunk_wins ["a", "b", "a"] (fun i j => 10 * i + j)
    2 2 "a" 1 (by decide) (by decide)
    (fun j h1 h2 => absurd h1 (by omega))).1

/-- Outcome of running a task body: the value it returns or the
exception it raises (`std::packaged_task` stores either one in the
future's shared state; the worker that invoked it never sees the
exception). -/
inductive Outcome
  | ok (v : Nat)
  | err (e : String)
deriving DecidableEq

/-- A unit of work submitted to the pool: `tid` identifies the shared
state created for it by `enqueue`, `outcome` is what running its body
produces. -/
structure WorkTask where
  tid : Nat
  outcome : Outcome
deriving DecidableEq

/-- Lifecycle of a future's shared state: no result yet; result stored
by the packaged task (value or captured exception, stored exactly
once); or retrieved by `std::future::get`, which moves the result out
and releases the shared state. -/
inductive FutureState
  | pending
  | ready (out : Outcome)
  | consumed (out : Outcome)
deriving DecidableEq

/-- One worker thread of the pool: whether it has returned from its
loop, and the task it has dequeued and is currently running, if any. -/
structure Worker where
  alive : Bool
  busy : Option WorkTask
deriving DecidableEq

/-- State of a `ThreadPool` (ThreadPool.h / ThreadPool.cpp): the
`stop` flag, the FIFO task queue, the worker threads, the shared
states of the futures returned by `enqueue` (newest first; lookup
takes the first match), and bookkeeping lists of the ids ever
submitted and the ids whose task has run to completion. -/
structure PoolState where
  stop : Bool
  queue : List WorkTask
  workers : List Worker
  futures : List (Nat × FutureState)
  submitted : List Nat
  executed : List Nat
deriving DecidableEq

/-- `ThreadPool::ThreadPool(numThreads)` (ThreadPool.cpp, lines 3-46):
`stop = false`, empty queue, `numThreads` workers each idle in its
loop. -/
def mkPool (numThreads : Nat) : PoolState :=
  { stop := false, queue := [],
    workers := List.replicate numThreads ⟨true, none⟩,
    futures := [], submitted := [], executed := [] }

def lookupF : List (Nat × FutureState) → Nat → Option FutureState
  | [], _ => none
  | p :: rest, id => if p.1 = id then some p.2 else lookupF rest id

/-- Effect of a successful `enqueue`: the task is appended to the FIFO
queue and a fresh pending shared state is created for its future. -/
def submitState (s : PoolState) (t : WorkTask) : PoolState :=
  { s with queue := s.queue ++ [t],
           futures := (t.tid, FutureState.pending) :: s.futures,
           submitted := s.submitted ++ [t.tid] }

/-- `ThreadPool::enqueue` (ThreadPool.h, lines 22-57): under the queue
lock, if `stop` is set it throws
`std::runtime_error("enqueue on stopped ThreadPool")`; otherwise it
appends the wrapped task to the queue, notifies a worker and returns
the task's future. -/
def enqueue (s : PoolState) (t : WorkTask) : Except String (PoolState × Nat) :=
  if s.stop then Except.error "enqueue on stopped ThreadPool"
  else Except.ok (submitState s t, t.tid)

/-- The destructor (ThreadPool.cpp, lines 48-55) sets the stop flag
under the lock, then wakes all workers and joins them. -/
def shutdownState (s : PoolState) : PoolState := { s with stop := true }

/-- A worker whose wait predicate passed with a non-empty queue pops
the front task (ThreadPool.cpp, lines 30-41). -/
def takeState (s : PoolState) (pre post : List Worker) (wk : Worker)
    (t : WorkTask) (rest : List WorkTask) : PoolState :=
  { s with queue := rest,
           workers := pre ++ { wk with busy := some t } :: post }

/-- A worker finishes running `task()`: the packaged task stores the
value, or the exception the body raised, in the task's own shared
state; the worker returns to the top of its loop either way. -/
def finishState (s : PoolState) (pre post : List Worker) (wk : Worker)
    (t : WorkTask) : PoolState :=
  { s with workers := pre ++ { wk with busy := none } :: post,
           futures := (t.tid, FutureState.ready t.outcome) :: s.futures,
           executed := s.executed ++ [t.tid] }

/-- A worker returns from its loop — only possible when the stop flag
is set and the queue is empty (`if (stop && tasks.empty()) return;`). -/
def exitState (s : PoolState) (pre post : List Worker) (wk : Worker) : PoolState :=
  { s with workers := pre ++ { wk with alive := false } :: post }

/-- Effect of `std::future::get` on a ready future: the result is
moved out and the shared state released. -/
def readState (s : PoolState) (id : Nat) (out : Outcome) : PoolState :=
  { s with futures := (id, FutureState.consumed out) :: s.futures }

/-- `std::future::get`: blocks until the shared state holds a result,
returns it (rethrowing a stored exception) and releases the shared
state; afterwards the future no longer has a shared state to read. -/
def readFuture (s : PoolState) (id : Nat) : Option (Outcome × PoolState) :=
  match lookupF s.futures id with
  | some (FutureState.ready out) => some (out, readState s id out)
  | _ => none

/-- One interleaving step of the pool and its clients, mirroring
ThreadPool.h / ThreadPool.cpp: a submission while not stopped (the
new future's shared state is fresh), the destructor setting the stop
flag, a worker dequeuing the queue front (its wait predicate passes
whenever the queue is non-empty), a worker finishing its task, a
worker exiting its loop (only when stop is set and the queue is
empty), and a client reading a ready future. -/
inductive Step : PoolState → PoolState → Prop
  | submit (s : PoolState) (t : WorkTask) (hstop : s.stop = false)
      (hfresh : lookupF s.futures t.tid = none) :
      Step s (submitState s t)
  | shutdown (s : PoolState) : Step s (shutdownState s)
  | take (s : PoolState) (pre post : List Worker) (wk : Worker)
      (t : WorkTask) (rest : List WorkTask)
      (hw : s.workers = pre ++ wk :: post)
      (halive : wk.alive = true) (hidle : wk.busy = none)
      (hq : s.queue = t :: rest) :
      Step s (takeState s pre post wk t rest)
  | finish (s : PoolState) (pre post : List Worker) (wk : Worker) (t : WorkTask)
      (hw : s.workers = pre ++ wk :: post) (hbusy : wk.busy = some t) :
      Step s (finishState s pre post wk t)
  | exit (s : PoolState) (pre post : List Worker) (wk : Worker)
      (hw : s.workers = pre ++ wk :: post)
      (halive : wk.alive = true) (hidle : wk.busy = none)
      (hstop : s.stop = true) (hq : s.queue = []) :
      Step s (exitState s pre post wk)
  | read (s : PoolState) (id : Nat) (out : Outcome)
      (hf : lookupF s.futures id = some (FutureState.ready out)) :
      Step s (readState s id out)

/-- Reflexive-transitive closure of `Step`. -/
inductive Steps : PoolState → PoolState → Prop
  | refl (s : PoolState) : Steps s s
  | tail (s s' s'' : PoolState) : Steps s s' → Step s' s'' → Steps s s''

theorem step_stop_mono {s s' : PoolState} (h : Step s s')
    (hs : s.stop = true) : s'.stop = true := by
  cases h with
  | submit t hstop hfresh => rw [hstop] at hs; exact absurd hs (by simp)
  | shutdown => rfl
  | take pre post wk t rest hw halive hidle hq => exact hs
  | finish pre post wk t hw hbusy => exact hs
  | exit pre post wk hw halive hidle hstop hq => exact hs
  | read id out hf => exact hs

theorem steps_stop_mono {s s' : PoolState} (h : Steps s s')
    (hs : s.stop = true) : s'.stop = true := by
  induction h with
  | refl => exact hs
  | tail s₁ s₂ hsteps hstep ih => exact step_stop_mono hstep ih

/-- C5: before shutdown every submission succeeds and returns a
handle; once shutdown has begun (`stop` set), in every subsequent
state reachable by any interleaving, every submission fails with the
pool-closed error — rejected, never silently dropped. -/
theorem enqueue_closed_pool (s s' : PoolState) (t u : WorkTask)
    (hstop : s.stop = true) (hsteps : Steps s s') :
    enqueue s' t = Except.error "enqueue on stopped ThreadPool" ∧
      ∀ s₀ : PoolState, s₀.stop = false →
        enqueue s₀ u = Except.ok (submitState s₀ u, u.tid) := by
  constructor
  · unfold enqueue
    rw [steps_stop_mono hsteps hstop]
    rfl
  · intro s₀ h₀
    unfold enqueue
    rw [h₀]
    rfl

theorem enqueue_closed_pool_witness :
    enqueue (shutdownState (mkPool 1)) ⟨0, Outcome.ok 0⟩
        = Except.error "enqueue on stopped ThreadPool" ∧
      enqueue (mkPool 1) ⟨0, Outcome.ok 0⟩
        = Except.ok (submitState (mkPool 1) ⟨0, Outcome.ok 0⟩, 0) := by
  have h := enqueue_closed_pool (shutdownState (mkPool 1))
    (shutdownState (mkPool 1)) ⟨0, Outcome.ok 0⟩ ⟨0, Outcome.ok 0⟩ rfl
    (Steps.refl _)
  exact ⟨h.1, h.2 (mkPool 1) rfl⟩

theorem lookupF_cons_self (a : Nat) (st : FutureState)
    (rest : List (Nat × FutureState)) :
    lookupF ((a, st) :: rest) a = some st := by
  show (if a = a then some st else lookupF rest a) = some st
  rw [if_pos rfl]

theorem lookupF_cons_ne (a : Nat) (st : FutureState)
    (rest : List (Nat × FutureState)) (id : Nat) (h : a ≠ id) :
    lookupF ((a, st) :: rest) id = lookupF rest id := by
  show (if a = id then some st else lookupF rest id) = lookupF rest id
  rw [if_neg h]

/-- C6: a task whose body raises an error has the error captured and
stored in that task's own shared state (reported when the handle is
read); the worker that ran it stays in its loop alive, the pool's
stop flag is untouched, every other future is untouched, the queue is
untouched, and the other workers (with whatever they are running) are
untouched — so every other task, queued or in-flight, proceeds
exactly as before. -/
theorem task_error_isolated (s : PoolState) (pre post : List Worker)
    (wk : Worker) (t : WorkTask) (e : String)
    (hw : s.workers = pre ++ wk :: post) (hbusy : wk.busy = some t)
    (hout : t.outcome = Outcome.err e) :
    Step s (finishState s pre post wk t) ∧
      lookupF (finishState s pre post wk t).futures t.tid
        = some (FutureState.ready (Outcome.err e)) ∧
      (readFuture (finishState s pre post wk t) t.tid).map Prod.fst
        = some (Outcome.err e) ∧
      (∀ id, id ≠ t.tid →
        lookupF (finishState s pre post wk t).futures id
          = lookupF s.futures id) ∧
      (finishState s pre post wk t).stop = s.stop ∧
      (finishState s pre post wk t).queue = s.queue ∧
      (finishState s pre post wk t).workers
        = pre ++ { wk with busy := none } :: post ∧
      ({ wk with busy := none } : Worker).alive = wk.alive := by
  have hl : lookupF (finishState s pre post wk t).futures t.tid
      = some (FutureState.ready (Outcome.err e)) := by
    show lookupF ((t.tid, FutureState.ready t.outcome) :: s.futures) t.tid = _
    rw [lookupF_cons_self, hout]
  refine ⟨Step.finish s pre post wk t hw hbusy, hl, ?_, ?_, rfl, rfl, rfl, rfl⟩
  · unfold readFuture
    rw [hl]
    rfl
  · intro id hid
    show lookupF ((t.tid, FutureState.ready t.outcome) :: s.futures) id = _
    exact lookupF_cons_ne t.tid _ s.futures id (fun h => hid h.symm)

/-- A one-worker pool in which worker 0 is running the task with id 5
whose body raises the error "boom". -/
def demoErrPool : PoolState :=
  { stop := false, queue := [],
    workers := [⟨true, some ⟨5, Outcome.err "boom"⟩⟩],
    futures := [(5, FutureState.pending)], submitted := [5], executed := [] }

theorem task_error_isolated_witness :
    Step demoErrPool
        (finishState demoErrPool [] [] ⟨true, some ⟨5, Outcome.err "boom"⟩⟩
          ⟨5, Outcome.err "boom"⟩) ∧
      lookupF (finishState demoErrPool [] []
          ⟨true, some ⟨5, Outcome.err "boom"⟩⟩ ⟨5, Outcome.err "boom"⟩).futures 5
        = some (FutureState.ready (Outcome.err "boom")) ∧
      (finishState demoErrPool [] [] ⟨true, some ⟨5, Outcome.err "boom"⟩⟩
          ⟨5, Outcome.err "boom"⟩).stop = false := by
  have h := task_error_isolated demoErrPool [] []
    ⟨true, some ⟨5, Outcome.err "boom"⟩⟩ ⟨5, Outcome.err "boom"⟩ "boom"
    rfl rfl rfl
  exact ⟨h.1, h.2.1, h.2.2.2.2.1⟩

/-- Tasks currently being executed by the given workers. -/
def busyOf (ws : List Worker) : List WorkTask := ws.filterMap Worker.busy

/-- Tasks currently being executed by the pool's workers. -/
def busyTasks (s : PoolState) : List WorkTask := busyOf s.workers

/-- Number of workers that have not returned from their loop. -/
def countAlive (s : PoolState) : Nat :=
  (s.workers.filter (fun w => w.alive)).length

theorem busyOf_append (l₁ l₂ : List Worker) :
    busyOf (l₁ ++ l₂) = busyOf l₁ ++ busyOf l₂ := by
  simp [busyOf, List.filterMap_append]

theorem busyOf_cons_none (w : Worker) (l : List Worker) (h : w.busy = none) :
    busyOf (w :: l) = busyOf l := by
  simp [busyOf, List.filterMap_cons, h]

theorem busyOf_cons_some (w : Worker) (l : List Worker) (t : WorkTask)
    (h : w.busy = some t) : busyOf (w :: l) = t :: busyOf l := by
  simp [busyOf, List.filterMap_cons, h]

theorem busyOf_nil_of_all_none :
    ∀ (ws : List Worker), (∀ w ∈ ws, w.busy = none) → busyOf ws = [] := by
  intro ws
  induction ws with
  | nil => intro _; rfl
  | cons w rest ih =>
    intro h
    rw [busyOf_cons_none w rest (h w (List.mem_cons_self w rest))]
    exact ih (fun x hx => h x (List.mem_cons_of_mem w hx))

/-- Invariant of every reachable pool state: while the pool is not
stopped no worker has exited; an exited worker runs nothing; if every
worker has exited the queue has been drained; every submitted id is
either executed, still queued, or being run; queued and in-flight
tasks have a pending shared state; and no id is queued or in flight
twice. -/
structure Inv (s : PoolState) : Prop where
  aliveOfRun : s.stop = false → ∀ w ∈ s.workers, w.alive = true
  deadIdle : ∀ w ∈ s.workers, w.alive = false → w.busy = none
  deadDrained : (s.workers ≠ [] ∧ ∀ w ∈ s.workers, w.alive = false) → s.queue = []
  tracked : ∀ id ∈ s.submitted,
    id ∈ s.executed ∨ id ∈ s.queue.map WorkTask.tid ∨
      id ∈ (busyTasks s).map WorkTask.tid
  queuePending : ∀ t ∈ s.queue, lookupF s.futures t.tid = some FutureState.pending
  busyPending : ∀ t ∈ busyTasks s,
    lookupF s.futures t.tid = some FutureState.pending
  tidsNodup : (s.queue.map WorkTask.tid ++ (busyTasks s).map WorkTask.tid).Nodup

theorem inv_init (n : Nat) : Inv (mkPool n) := by
  refine ⟨?_, ?_, ?_, ?_, ?_, ?_, ?_⟩
  · intro _ w hw
    have h := List.eq_of_mem_replicate hw
    rw [h]
  · intro w hw _
    have h := List.eq_of_mem_replicate hw
    rw [h]
  · intro _; rfl
  · intro id hid; exact absurd hid (by simp [mkPool])
  · intro t ht; exact absurd ht (by simp [mkPool])
  · intro t ht; exact absurd ht (by simp [mkPool, busyTasks, busyOf])
  · simp [mkPool, busyTasks, busyOf]

theorem lookupF_cons_pending (a : Nat) (rest : List (Nat × FutureState))
    (id : Nat) (h : lookupF rest id = some FutureState.pending) :
    lookupF ((a, FutureState.pending) :: rest) id = some FutureState.pending := by
  show (if a = id then some FutureState.pending else lookupF rest id) = _
  by_cases he : a = id
  · rw [if_pos he]
  · rw [if_neg he]; exact h

theorem inv_step {s s' : PoolState} (hinv : Inv s) (hstep : Step s s') :
    Inv s' := by
  obtain ⟨K, N, M, B, Qq, Qb, D⟩ := hinv
  cases hstep with
  | submit t hstop hfresh =>
    refine ⟨?_, ?_, ?_, ?_, ?_, ?_, ?_⟩
    · intro h w hw; exact K h w hw
    · exact N
    · intro h
      obtain ⟨hne, hdead⟩ := h
      obtain ⟨w, hw⟩ := List.exists_mem_of_ne_nil _ hne
      exact absurd (K hstop w hw) (by simp [hdead w hw])
    · intro id hid
      rcases List.mem_append.mp hid with h | h
      · rcases B id h with h1 | h2 | h3
        · exact Or.inl h1
        · refine Or.inr (Or.inl ?_)
          show id ∈ (s.queue ++ [t]).map WorkTask.tid
          rw [List.map_append]
          exact List.mem_append_left _ h2
        · exact Or.inr (Or.inr h3)
      · have heq : id = t.tid := by simpa using h
        refine Or.inr (Or.inl ?_)
        show id ∈ (s.queue ++ [t]).map WorkTask.tid
        rw [List.map_append, heq]
        exact List.mem_append_right _ (by simp)
    · intro u hu
      rcases List.mem_append.mp hu with h | h
      · exact lookupF_cons_pending t.tid s.futures u.tid (Qq u h)
      · have heq : u = t := by simpa using h
        rw [heq]
        exact lookupF_cons_self t.tid FutureState.pending s.futures
    · intro u hu
      exact lookupF_cons_pending t.tid s.futures u.tid (Qb u hu)
    · show ((s.queue ++ [t]).map WorkTask.tid
          ++ (busyTasks s).map WorkTask.tid).Nodup
      rw [List.map_append, List.append_assoc]
      have hmt : List.map WorkTask.tid [t] = [t.tid] := rfl
      rw [hmt]
      have hperm : List.Perm
          (s.queue.map WorkTask.tid
            ++ ([t.tid] ++ (busyTasks s).map WorkTask.tid))
          (t.tid :: (s.queue.map WorkTask.tid
            ++ (busyTasks s).map WorkTask.tid)) := List.perm_middle
      rw [hperm.nodup_iff, List.nodup_cons]
      refine ⟨?_, D⟩
      intro hin
      rcases List.mem_append.mp hin with h | h
      · obtain ⟨u, hu, he⟩ := List.mem_map.mp h
        have h2 := Qq u hu
        rw [he, hfresh] at h2
        exact absurd h2 (by simp)
      · obtain ⟨u, hu, he⟩ := List.mem_map.mp h
        have h2 := Qb u hu
        rw [he, hfresh] at h2
        exact absurd h2 (by simp)
  | shutdown =>
    refine ⟨?_, N, ?_, B, Qq, Qb, D⟩
    · intro h
      exact absurd h (by simp [shutdownState])
    · intro h
      exact M h
  | take pre post wk t rest hw halive hidle hq =>
    have hbtOld : busyTasks s = busyOf pre ++ busyOf post := by
      rw [busyTasks, hw, busyOf_append, busyOf_cons_none wk post hidle]
    have hbtNew : busyTasks (takeState s pre post wk t rest)
        = busyOf pre ++ t :: busyOf post := by
      show busyOf (pre ++ { wk with busy := some t } :: post) = _
      rw [busyOf_append, busyOf_cons_some _ post t rfl]
    have hmemwk : wk ∈ s.workers := by
      rw [hw]; exact List.mem_append_right _ (List.mem_cons_self _ _)
    refine ⟨?_, ?_, ?_, ?_, ?_, ?_, ?_⟩
    · intro hstop w hw'
      rcases List.mem_append.mp hw' with hp | hc
      · exact K hstop w (by rw [hw]; exact List.mem_append_left _ hp)
      · rcases List.mem_cons.mp hc with heq | hp
        · rw [heq]
          show wk.alive = true
          exact halive
        · exact K hstop w
            (by rw [hw]
                exact List.mem_append_right _ (List.mem_cons_of_mem _ hp))
    · intro w hw' hdead
      rcases List.mem_append.mp hw' with hp | hc
      · exact N w (by rw [hw]; exact List.mem_append_left _ hp) hdead
      · rcases List.mem_cons.mp hc with heq | hp
        · exfalso
          rw [heq] at hdead
          have h2 : wk.alive = false := hdead
          rw [halive] at h2
          exact absurd h2 (by simp)
        · exact N w
            (by rw [hw]
                exact List.mem_append_right _ (List.mem_cons_of_mem _ hp)) hdead
    · intro h
      obtain ⟨hne, hdead⟩ := h
      exfalso
      have hmem' : ({ wk with busy := some t } : Worker)
          ∈ pre ++ { wk with busy := some t } :: post :=
        List.mem_append_right _ (List.mem_cons_self _ _)
      have h2 : wk.alive = false := hdead ({ wk with busy := some t }) hmem'
      rw [halive] at h2
      exact absurd h2 (by simp)
    · intro id hid
      rcases B id hid with h1 | h2 | h3
      · exact Or.inl h1
      · rw [hq, List.map_cons] at h2
        rcases List.mem_cons.mp h2 with heq | hp
        · refine Or.inr (Or.inr ?_)
          rw [hbtNew, List.map_append, List.map_cons, heq]
          exact List.mem_append_right _ (List.mem_cons_self _ _)
        · exact Or.inr (Or.inl hp)
      · refine Or.inr (Or.inr ?_)
        rw [hbtOld, List.map_append] at h3
        rw [hbtNew, List.map_append, List.map_cons]
        rcases List.mem_append.mp h3 with hp | hp
        · exact List.mem_append_left _ hp
        · exact List.mem_append_right _ (List.mem_cons_of_mem _ hp)
    · intro u hu
      exact Qq u (by rw [hq]; exact List.mem_cons_of_mem _ hu)
    · intro u hu
      rw [hbtNew] at hu
      rcases List.mem_append.mp hu with hp | hc
      · exact Qb u (by rw [hbtOld]; exact List.mem_append_left _ hp)
      · rcases List.mem_cons.mp hc with heq | hp
        · rw [heq]
          exact Qq t (by rw [hq]; exact List.mem_cons_self _ _)
        · exact Qb u (by rw [hbtOld]; exact List.mem_append_right _ hp)
    · show (rest.map WorkTask.tid
          ++ (busyTasks (takeState s pre post wk t rest)).map WorkTask.tid).Nodup
      rw [hbtNew, List.map_append, List.map_cons, ← List.append_assoc,
        (List.perm_middle).nodup_iff, List.append_assoc]
      have hD : (s.queue.map WorkTask.tid
          ++ (busyTasks s).map WorkTask.tid).Nodup := D
      rw [hq, hbtOld, List.map_cons, List.map_append, List.cons_append] at hD
      exact hD
  | finish pre post wk t hw hbusy =>
    have hbtOld : busyTasks s = busyOf pre ++ t :: busyOf post := by
      rw [busyTasks, hw, busyOf_append, busyOf_cons_some wk post t hbusy]
    have hbtNew : busyTasks (finishState s pre post wk t)
        = busyOf pre ++ busyOf post := by
      show busyOf (pre ++ { wk with busy := none } :: post) = _
      rw [busyOf_append, busyOf_cons_none _ post rfl]
    have hmemwk : wk ∈ s.workers := by
      rw [hw]; exact List.mem_append_right _ (List.mem_cons_self _ _)
    have hD2 : (t.tid :: ((s.queue.map WorkTask.tid
        ++ (busyOf pre).map WorkTask.tid)
        ++ (busyOf post).map WorkTask.tid)).Nodup := by
      have hD : (s.queue.map WorkTask.tid
          ++ (busyTasks s).map WorkTask.tid).Nodup := D
      rw [hbtOld, List.map_append, List.map_cons, ← List.append_assoc] at hD
      exact (List.perm_middle).nodup_iff.mp hD
    have hnotin := (List.nodup_cons.mp hD2).1
    have hDtail := (List.nodup_cons.mp hD2).2
    refine ⟨?_, ?_, ?_, ?_, ?_, ?_, ?_⟩
    · intro hstop w hw'
      rcases List.mem_append.mp hw' with hp | hc
      · exact K hstop w (by rw [hw]; exact List.mem_append_left _ hp)
      · rcases List.mem_cons.mp hc with heq | hp
        · rw [heq]
          show wk.alive = true
          exact K hstop wk hmemwk
        · exact K hstop w
            (by rw [hw]
                exact List.mem_append_right _ (List.mem_cons_of_mem _ hp))
    · intro w hw' hdead
      rcases List.mem_append.mp hw' with hp | hc
      · exact N w (by rw [hw]; exact List.mem_append_left _ hp) hdead
      · rcases List.mem_cons.mp hc with heq | hp
        · rw [heq]
        · exact N w
            (by rw [hw]
                exact List.mem_append_right _ (List.mem_cons_of_mem _ hp)) hdead
    · intro h
      obtain ⟨hne, hdead⟩ := h
      exfalso
      have hmem' : ({ wk with busy := none } : Worker)
          ∈ pre ++ { wk with busy := none } :: post :=
        List.mem_append_right _ (List.mem_cons_self _ _)
      have h2 : wk.alive = false := hdead ({ wk with busy := none }) hmem'
      have h3 := N wk hmemwk h2
      rw [hbusy] at h3
      exact absurd h3 (by simp)
    · intro id hid
      rcases B id hid with h1 | h2 | h3
      · exact Or.inl (List.mem_append_left _ h1)
      · exact Or.inr (Or.inl h2)
      · rw [hbtOld, List.map_append, List.map_cons] at h3
        rcases List.mem_append.mp h3 with hp | hc
        · refine Or.inr (Or.inr ?_)
          rw [hbtNew, List.map_append]
          exact List.mem_append_left _ hp
        · rcases List.mem_cons.mp hc with heq | hp
          · refine Or.inl ?_
            rw [heq]
            exact List.mem_append_right _ (by simp)
          · refine Or.inr (Or.inr ?_)
            rw [hbtNew, List.map_append]
            exact List.mem_append_right _ hp
    · intro u hu
      have hne : t.tid ≠ u.tid := by
        intro he
        apply hnotin
        rw [he]
        exact List.mem_append_left _
          (List.mem_append_left _ (List.mem_map_of_mem WorkTask.tid hu))
      show lookupF ((t.tid, FutureState.ready t.outcome) :: s.futures) u.tid = _
      rw [lookupF_cons_ne _ _ _ _ hne]
      exact Qq u hu
    · intro u hu
      rw [hbtNew] at hu
      have huold : u ∈ busyTasks s := by
        rw [hbtOld]
        rcases List.mem_append.mp hu with hp | hp
        · exact List.mem_append_left _ hp
        · exact List.mem_append_right _ (List.mem_cons_of_mem _ hp)
      have hne : t.tid ≠ u.tid := by
        intro he
        apply hnotin
        rw [he]
        rcases List.mem_append.mp hu with hp | hp
        · exact List.mem_append_left _
            (List.mem_append_right _ (List.mem_map_of_mem WorkTask.tid hp))
        · exact List.mem_append_right _ (List.mem_map_of_mem WorkTask.tid hp)
      show lookupF ((t.tid, FutureState.ready t.outcome) :: s.futures) u.tid = _
      rw [lookupF_cons_ne _ _ _ _ hne]
      exact Qb u huold
    · show (s.queue.map WorkTask.tid
          ++ (busyTasks (finishState s pre post wk t)).map WorkTask.tid).Nodup
      rw [hbtNew, List.map_append, ← List.append_assoc]
      exact hDtail
  | exit pre post wk hw halive hidle hstop hq =>
    have hbtOld : busyTasks s = busyOf pre ++ busyOf post := by
      rw [busyTasks, hw, busyOf_append, busyOf_cons_none wk post hidle]
    have hbtNew : busyTasks (exitState s pre post wk)
        = busyOf pre ++ busyOf post := by
      show busyOf (pre ++ { wk with alive := false } :: post) = _
      rw [busyOf_append, busyOf_cons_none ({ wk with alive := false }) post hidle]
    have hbteq : busyTasks (exitState s pre post wk) = busyTasks s := by
      rw [hbtNew, hbtOld]
    refine ⟨?_, ?_, ?_, ?_, ?_, ?_, ?_⟩
    · intro h
      have h2 : s.stop = false := h
      rw [hstop] at h2
      exact absurd h2 (by simp)
    · intro w hw' hdead
      rcases List.mem_append.mp hw' with hp | hc
      · exact N w (by rw [hw]; exact List.mem_append_left _ hp) hdead
      · rcases List.mem_cons.mp hc with heq | hp
        · rw [heq]
          show wk.busy = none
          exact hidle
        · exact N w
            (by rw [hw]
                exact List.mem_append_right _ (List.mem_cons_of_mem _ hp)) hdead
    · intro _
      exact hq
    · intro id hid
      rcases B id hid with h1 | h2 | h3
      · exact Or.inl h1
      · exact Or.inr (Or.inl h2)
      · refine Or.inr (Or.inr ?_)
        rw [hbteq]
        exact h3
    · exact Qq
    · intro u hu
      rw [hbteq] at hu
      exact Qb u hu
    · show (s.queue.map WorkTask.tid
          ++ (busyTasks (exitState s pre post wk)).map WorkTask.tid).Nodup
      rw [hbteq]
      exact D
  | read id out hf =>
    refine ⟨K, N, ?_, B, ?_, ?_, D⟩
    · intro h
      exact M h
    · intro u hu
      have hne : id ≠ u.tid := by
        intro he
        have h2 := Qq u hu
        rw [← he, hf] at h2
        exact absurd h2 (by simp)
      show lookupF ((id, FutureState.consumed out) :: s.futures) u.tid = _
      rw [lookupF_cons_ne _ _ _ _ hne]
      exact Qq u hu
    · intro u hu
      have hne : id ≠ u.tid := by
        intro he
        have h2 := Qb u hu
        rw [← he, hf] at h2
        exact absurd h2 (by simp)
      show lookupF ((id, FutureState.consumed out) :: s.futures) u.tid = _
      rw [lookupF_cons_ne _ _ _ _ hne]
      exact Qb u hu

theorem inv_steps {s s' : PoolState} (hinv : Inv s) (hsteps : Steps s s') :
    Inv s' := by
  induction hsteps with
  | refl => exact hinv
  | tail s₁ s₂ hst hstep ih => exact inv_step ih hstep

theorem filter_alive_split (pre post : List Worker) (wk wk' : Worker)
    (h : wk'.alive = wk.alive) :
    ((pre ++ wk' :: post).filter (fun w => w.alive)).length
      = ((pre ++ wk :: post).filter (fun w => w.alive)).length := by
  rw [List.filter_append, List.filter_append, List.length_append,
    List.length_append, List.filter_cons, List.filter_cons, h]
  cases hval : wk.alive <;> simp

theorem step_workers_length {s s' : PoolState} (h : Step s s') :
    s'.workers.length = s.workers.length := by
  cases h with
  | submit t hstop hfresh => rfl
  | shutdown => rfl
  | take pre post wk t rest hw halive hidle hq =>
    show (pre ++ _ :: post).length = _
    rw [hw]
    simp
  | finish pre post wk t hw hbusy =>
    show (pre ++ _ :: post).length = _
    rw [hw]
    simp
  | exit pre post wk hw halive hidle hstop hq =>
    show (pre ++ _ :: post).length = _
    rw [hw]
    simp
  | read id out hf => rfl

theorem steps_workers_length {s s' : PoolState} (h : Steps s s') :
    s'.workers.length = s.workers.length := by
  induction h with
  | refl => rfl
  | tail s₁ s₂ hst hstep ih => rw [step_workers_length hstep, ih]

theorem step_exit_queue_empty {s s' : PoolState} (hstep : Step s s')
    (hdec : countAlive s' < countAlive s) : s.queue = [] := by
  cases hstep with
  | submit t hstop hfresh => exact absurd hdec (Nat.lt_irrefl _)
  | shutdown => exact absurd hdec (Nat.lt_irrefl _)
  | take pre post wk t rest hw halive hidle hq =>
    exfalso
    have he : countAlive (takeState s pre post wk t rest) = countAlive s := by
      show ((pre ++ { wk with busy := some t } :: post).filter
        (fun w => w.alive)).length = _
      rw [countAlive, hw]
      exact filter_alive_split pre post wk _ rfl
    rw [he] at hdec
    exact absurd hdec (Nat.lt_irrefl _)
  | finish pre post wk t hw hbusy =>
    exfalso
    have he : countAlive (finishState s pre post wk t) = countAlive s := by
      show ((pre ++ { wk with busy := none } :: post).filter
        (fun w => w.alive)).length = _
      rw [countAlive, hw]
      exact filter_alive_split pre post wk _ rfl
    rw [he] at hdec
    exact absurd hdec (Nat.lt_irrefl _)
  | exit pre post wk hw halive hidle hstop hq => exact hq
  | read id out hf => exact absurd hdec (Nat.lt_irrefl _)

/-- C7: a worker never terminates while the task queue is non-empty —
any step after which fewer workers are alive requires an empty queue
at that moment — and in any reachable state of a pool with at least
one worker in which every worker has terminated (as after the
destructor has joined them), every task ever submitted has run to
completion. -/
theorem worker_exit_drains (n : Nat) (s s' : PoolState)
    (hreach : Steps (mkPool n) s) :
    (Step s s' → countAlive s' < countAlive s → s.queue = []) ∧
      (1 ≤ n → (∀ w ∈ s.workers, w.alive = false) →
        ∀ id ∈ s.submitted, id ∈ s.executed) := by
  constructor
  · intro hstep hdec
    exact step_exit_queue_empty hstep hdec
  · intro hn hdead id hid
    have hinv := inv_steps (inv_init n) hreach
    have hlen : s.workers.length = n := by
      rw [steps_workers_length hreach]
      show (List.replicate n (⟨true, none⟩ : Worker)).length = n
      exact List.length_replicate n _
    have hne : s.workers ≠ [] := by
      intro h
      rw [h] at hlen
      simp at hlen
      omega
    have hq := hinv.deadDrained ⟨hne, hdead⟩
    have hb : busyTasks s = [] := busyOf_nil_of_all_none s.workers
      (fun w hw => hinv.deadIdle w hw (hdead w hw))
    rcases hinv.tracked id hid with h1 | h2 | h3
    · exact h1
    · rw [hq] at h2
      exact absurd h2 (by simp)
    · rw [busyTasks] at hb
      rw [busyTasks, hb] at h3
      exact absurd h3 (by simp)

/-- Demonstration run of a one-worker pool: submit one task (id 0,
value 7), let the worker take and finish it, shut the pool down and
let the worker exit. -/
def demoTask : WorkTask := ⟨0, Outcome.ok 7⟩

def demoW : Worker := ⟨true, none⟩

def demoS1 : PoolState := submitState (mkPool 1) demoTask

def demoS2 : PoolState := takeState demoS1 [] [] demoW demoTask []

def demoS3 : PoolState := finishState demoS2 [] [] ⟨true, some demoTask⟩ demoTask

def demoS4 : PoolState := shutdownState demoS3

def demoS5 : PoolState := exitState demoS4 [] [] ⟨true, none⟩

theorem demoSteps3 : Steps (mkPool 1) demoS3 := by
  have h1 : Step (mkPool 1) demoS1 := Step.submit (mkPool 1) demoTask rfl rfl
  have h2 : Step demoS1 demoS2 :=
    Step.take demoS1 [] [] demoW demoTask [] rfl rfl rfl rfl
  have h3 : Step demoS2 demoS3 :=
    Step.finish demoS2 [] [] ⟨true, some demoTask⟩ demoTask rfl rfl
  exact Steps.tail _ _ _
    (Steps.tail _ _ _ (Steps.tail _ _ _ (Steps.refl _) h1) h2) h3

theorem demoSteps5 : Steps (mkPool 1) demoS5 := by
  have h4 : Step demoS3 demoS4 := Step.shutdown demoS3
  have h5 : Step demoS4 demoS5 :=
    Step.exit demoS4 [] [] ⟨true, none⟩ rfl rfl rfl rfl rfl
  exact Steps.tail _ _ _ (Steps.tail _ _ _ demoSteps3 h4) h5

theorem worker_exit_drains_witness :
    1 ≤ 1 ∧ 0 ∈ demoS5.executed :=
  ⟨by decide,
    (worker_exit_drains 1 demoS5 demoS5 demoSteps5).2 (by decide) (by decide)
      0 (by decide)⟩

theorem ready_stable_step {s s' : PoolState} (hinv : Inv s) (hstep : Step s s')
    (id : Nat) (out : Outcome)
    (hready : lookupF s.futures id = some (FutureState.ready out)) :
    lookupF s'.futures id = some (FutureState.ready out) ∨
      lookupF s'.futures id = some (FutureState.consumed out) := by
  cases hstep with
  | submit t hstop hfresh =>
    have hne : t.tid ≠ id := by
      intro he
      rw [he, hready] at hfresh
      exact absurd hfresh (by simp)
    left
    show lookupF ((t.tid, FutureState.pending) :: s.futures) id = _
    rw [lookupF_cons_ne _ _ _ _ hne]
    exact hready
  | shutdown => left; exact hready
  | take pre post wk t rest hw halive hidle hq => left; exact hready
  | finish pre post wk t hw hbusy =>
    have htmem : t ∈ busyTasks s := by
      rw [busyTasks, hw, busyOf_append, busyOf_cons_some wk post t hbusy]
      exact List.mem_append_right _ (List.mem_cons_self _ _)
    have hp := hinv.busyPending t htmem
    have hne : t.tid ≠ id := by
      intro he
      rw [he, hready] at hp
      exact absurd hp (by simp)
    left
    show lookupF ((t.tid, FutureState.ready t.outcome) :: s.futures) id = _
    rw [lookupF_cons_ne _ _ _ _ hne]
    exact hready
  | exit pre post wk hw halive hidle hstop hq => left; exact hready
  | read id' out' hf =>
    by_cases he : id' = id
    · right
      rw [he, hready] at hf
      simp at hf
      show lookupF ((id', FutureState.consumed out') :: s.futures) id = _
      rw [he, lookupF_cons_self, hf]
    · left
      show lookupF ((id', FutureState.consumed out') :: s.futures) id = _
      rw [lookupF_cons_ne _ _ _ _ he]
      exact hready

theorem consumed_stable_step {s s' : PoolState} (hinv : Inv s)
    (hstep : Step s s') (id : Nat) (out : Outcome)
    (hcons : lookupF s.futures id = some (FutureState.consumed out)) :
    lookupF s'.futures id = some (FutureState.consumed out) := by
  cases hstep with
  | submit t hstop hfresh =>
    have hne : t.tid ≠ id := by
      intro he
      rw [he, hcons] at hfresh
      exact absurd hfresh (by simp)
    show lookupF ((t.tid, FutureState.pending) :: s.futures) id = _
    rw [lookupF_cons_ne _ _ _ _ hne]
    exact hcons
  | shutdown => exact hcons
  | take pre post wk t rest hw halive hidle hq => exact hcons
  | finish pre post wk t hw hbusy =>
    have htmem : t ∈ busyTasks s := by
      rw [busyTasks, hw, busyOf_append, busyOf_cons_some wk post t hbusy]
      exact List.mem_append_right _ (List.mem_cons_self _ _)
    have hp := hinv.busyPending t htmem
    have hne : t.tid ≠ id := by
      intro he
      rw [he, hcons] at hp
      exact absurd hp (by simp)
    show lookupF ((t.tid, FutureState.ready t.outcome) :: s.futures) id = _
    rw [lookupF_cons_ne _ _ _ _ hne]
    exact hcons
  | exit pre post wk hw halive hidle hstop hq => exact hcons
  | read id' out' hf =>
    by_cases he : id' = id
    · rw [he, hcons] at hf
      exact absurd hf (by simp)
    · show lookupF ((id', FutureState.consumed out') :: s.futures) id = _
      rw [lookupF_cons_ne _ _ _ _ he]
      exact hcons

theorem steps_ready_stable {s s' : PoolState} (hinv : Inv s)
    (hsteps : Steps s s') (id : Nat) (out : Outcome)
    (hready : lookupF s.futures id = some (FutureState.ready out)) :
    lookupF s'.futures id = some (FutureState.ready out) ∨
      lookupF s'.futures id = some (FutureState.consumed out) := by
  induction hsteps with
  | refl => left; exact hready
  | tail s₁ s₂ hst hstep ih =>
    have hinv₁ : Inv s₁ := inv_steps hinv hst
    rcases ih with h | h
    · exact ready_stable_step hinv₁ hstep id out h
    · exact Or.inr (consumed_stable_step hinv₁ hstep id out h)

/-- C9 — counterexample.  The claim says reading a handle a second
time returns the same outcome as the first read.  The handle returned
by `enqueue` is a `std::future`, whose `get()` moves the result out
and releases the shared state: in the demonstration run the first
read of task 0's handle returns its value, and a second read finds no
shared state at all — it fails rather than returning the outcome
again. -/
theorem future_reread_cex :
    readFuture demoS3 0 = some (Outcome.ok 7, readState demoS3 0 (Outcome.ok 7)) ∧
      readFuture (readState demoS3 0 (Outcome.ok 7)) 0 = none := by
  constructor
  · rfl
  · rfl

/-- C9 (amended): for every handle returned by a submission, exactly
one task stores its result exactly once — once the shared state holds
an outcome, no later step ever changes it (it can only be moved out
by `get`) — a reader blocks until the result is stored and the first
read returns exactly that outcome; but the handle is single-use: a
second read fails (the shared state is released) instead of returning
the same outcome again. -/
theorem handle_write_once_single_read (n : Nat) (s s' : PoolState)
    (id : Nat) (out : Outcome) (hreach : Steps (mkPool n) s)
    (hready : lookupF s.futures id = some (FutureState.ready out))
    (hsteps : Steps s s') :
    (lookupF s'.futures id = some (FutureState.ready out) ∨
      lookupF s'.futures id = some (FutureState.consumed out)) ∧
      readFuture s id = some (out, readState s id out) ∧
      readFuture (readState s id out) id = none := by
  refine ⟨steps_ready_stable (inv_steps (inv_init n) hreach) hsteps id out hready,
    ?_, ?_⟩
  · unfold readFuture
    rw [hready]
  · unfold readFuture
    have hl : lookupF (readState s id out).futures id
        = some (FutureState.consumed out) := lookupF_cons_self _ _ _
    rw [hl]

theorem handle_write_once_single_read_witness :
    lookupF demoS3.futures 0 = some (FutureState.ready (Outcome.ok 7)) ∧
      readFuture demoS3 0 = some (Outcome.ok 7, readState demoS3 0 (Outcome.ok 7)) ∧
      readFuture (readState demoS3 0 (Outcome.ok 7)) 0 = none := by
  have h := handle_write_once_single_read 1 demoS3 demoS3 0 (Outcome.ok 7)
    demoSteps3 (by decide) (Steps.refl _)
  exact ⟨by decide, h.2.1, h.2.2⟩
